import Mathlib

/-
Verification of the MLPF TensorFlow model core (src/mlpf/tfmodel/model.py).

The tensor programs are shallowly embedded per batch element: all the
operations under study act independently along the batch dimension, so a
single batch element is modelled.  Float32 values are modelled as exact
rationals; the analytic primitives (exp, log, sqrt, sin, cos, cosh,
sigmoid) that TensorFlow provides are abstracted as an explicit record of
functions, so that every algebraic fact proved here holds for the real
analytic functions in particular.  Integer index computations (argmax,
argsort, reshape, gather, scatter) are modelled exactly.  Definitions
that only need an ordering or ring structure on the score type are kept
generic, so that concrete witnesses can be evaluated over the integers.
-/

/-! ## Generic tensor-op primitives -/

/-- Value clipping, the semantics of tf.clip_by_value for lo less or equal hi. -/
def clipV {α : Type} [LinearOrder α] (x lo hi : α) : α := min (max x lo) hi

/-- Index of the maximum of a list, smallest index on ties: the semantics of
tf.argmax over the last axis (model.py line 19, line 581). Empty list gives 0. -/
def argmaxIdx {α : Type} [LinearOrder α] : List α → ℕ
  | [] => 0
  | x :: xs => if xs.all (fun y => y ≤ x) then 0 else argmaxIdx xs + 1

/-- Stable insertion of an index into an ascending-by-key index list; ties keep
the existing (earlier-inserted, hence smaller) index first. -/
def insertByKey (key : ℕ → ℕ) (a : ℕ) : List ℕ → List ℕ
  | [] => [a]
  | b :: l => if key a < key b then a :: b :: l else b :: insertByKey key a l

/-- Ascending stable argsort of the indices 0..n-1 by an integer key: the
semantics of tf.argsort in model.py line 20. -/
def argsortList (key : ℕ → ℕ) (n : ℕ) : List ℕ :=
  (List.range n).foldl (fun acc a => insertByKey key a acc) []

/-- Dot product of two feature vectors (one row of a tf.linalg.matmul). -/
def dotL {α : Type} [CommRing α] (a b : List α) : α := (List.zipWith (· * ·) a b).sum

/-- Squared Euclidean norm of a feature vector (tf.reduce_sum of tf.square). -/
def sqnormL {α : Type} [CommRing α] (a : List α) : α := dotL a a

/-- Partition a flat list into nb consecutive chunks of bin_size elements: the
row-major semantics of tf.reshape to (nbins, bin_size). -/
def chunksOf {γ : Type} (bin_size : ℕ) : ℕ → List γ → List (List γ)
  | 0, _ => []
  | nb + 1, l => l.take bin_size :: chunksOf bin_size nb (l.drop bin_size)

/-- Gathering values at a list of indices: tf.gather with batch_dims=1,
restricted to one batch element (model.py lines 382-384). -/
def gatherL {β : Type} (x : ℕ → β) (inds : List ℕ) : List β := inds.map x

/-- Gathering values at a binned index tensor, bin row by bin row. -/
def gatherBinned {β : Type} (x : ℕ → β) (bins : List (List ℕ)) : List (List β) :=
  bins.map (fun r => gatherL x r)

/-- Semantics of tf.scatter_nd over one batch element: output slot i receives
the sum of all values whose target index equals i, and 0 if there is none. -/
def scatterNd {β : Type} [AddCommMonoid β] (inds : List ℕ) (vals : List β) (n : ℕ) : List β :=
  (List.range n).map (fun i => (((inds.zip vals).filter (fun q => q.1 == i)).map Prod.snd).sum)

/-! ## LSH binning (model.py: split_indices_to_bins_batch, reverse_lsh,
MessageBuildingLayerLSH.call) -/

/-- Per-element bin index: tf.argmax over the LSH scores plus the synthetic
offset nbins-1 added to masked (padding) elements, model.py line 19. -/
def lshBinIdx {α : Type} [LinearOrder α] (nbins : ℕ) (cmul : ℕ → List α) (msk : ℕ → Bool)
    (i : ℕ) : ℕ :=
  argmaxIdx (cmul i) + (if msk i then 0 else nbins - 1)

/-- The flat bin-sorted index permutation: tf.argsort of the offset bin
indices over one batch element, model.py line 20. -/
def splitIndicesFlat {α : Type} [LinearOrder α] (cmul : ℕ → List α) (nbins : ℕ)
    (msk : ℕ → Bool) (n : ℕ) : List ℕ :=
  argsortList (lshBinIdx nbins cmul msk) n

/-- Reshape of the flat sorted index list to (nbins, bin_size); tf.reshape
fails unless the element counts agree exactly. -/
def reshapeBins (nbins bin_size : ℕ) (l : List ℕ) : Option (List (List ℕ)) :=
  if l.length = nbins * bin_size then some (chunksOf bin_size nbins l) else none

/-- One batch element of split_indices_to_bins_batch (model.py lines 18-21):
argmax, synthetic mask offset, argsort, reshape. -/
def splitIndicesToBinsBatch {α : Type} [LinearOrder α] (cmul : ℕ → List α)
    (nbins bin_size : ℕ) (msk : ℕ → Bool) (n : ℕ) : Option (List (List ℕ)) :=
  reshapeBins nbins bin_size (splitIndicesFlat cmul nbins msk n)

/-- One batch element of reverse_lsh (model.py lines 82-104): flatten the
binned indices and values back to flat shape and tf.scatter_nd the values to
their original positions. -/
def reverseLsh {β : Type} [AddCommMonoid β] (bins : List (List ℕ)) (valsB : List (List β))
    (n : ℕ) : List β :=
  scatterNd bins.flatten valsB.flatten n

/-- The LSH projection rows: tf.linalg.matmul of the distance features with
the first ncols columns of the random-rotation codebook (model.py line 379). -/
def lshProj {α : Type} [CommRing α] (xmsg : ℕ → List α) (codebook : ℕ → List α)
    (ncols : ℕ) (i : ℕ) : List α :=
  (List.range ncols).map (fun k => dotL (xmsg i) (codebook k))

/-- The concatenated LSH scores, tf.concat of the projection and its negation
(model.py line 380). -/
def lshCmul {α : Type} [CommRing α] (xmsg : ℕ → List α) (codebook : ℕ → List α)
    (ncols : ℕ) (i : ℕ) : List α :=
  lshProj xmsg codebook ncols i ++ (lshProj xmsg codebook ncols i).map (fun v => -v)

/-- The separation property claimed for the binning: every bin is made purely
of real elements or purely of padding elements. -/
def binsAllSeparated (msk : ℕ → Bool) (bins : List (List ℕ)) : Prop :=
  ∀ b ∈ bins, (∀ i ∈ b, msk i = true) ∨ (∀ i ∈ b, msk i = false)

instance (msk : ℕ → Bool) (bins : List (List ℕ)) : Decidable (binsAllSeparated msk bins) := by
  unfold binsAllSeparated; infer_instance

/-! ## Helper lemmas for the sort / scatter algebra -/

theorem insertByKey_perm (key : ℕ → ℕ) (a : ℕ) (l : List ℕ) :
    (insertByKey key a l).Perm (a :: l) := by
  induction l with
  | nil => simp [insertByKey]
  | cons b t ih =>
      simp only [insertByKey]
      split
      · exact List.Perm.refl _
      · exact (ih.cons b).trans (List.Perm.swap a b t)

theorem argsort_foldl_perm (key : ℕ → ℕ) :
    ∀ (l acc : List ℕ), (l.foldl (fun acc a => insertByKey key a acc) acc).Perm (acc ++ l) := by
  intro l
  induction l with
  | nil => intro acc; simp
  | cons a t ih =>
      intro acc
      simp only [List.foldl_cons]
      refine (ih (insertByKey key a acc)).trans ?_
      refine ((insertByKey_perm key a acc).append_right t).trans ?_
      simpa using List.perm_middle.symm

theorem argsortList_perm (key : ℕ → ℕ) (n : ℕ) :
    (argsortList key n).Perm (List.range n) := by
  simpa using argsort_foldl_perm key (List.range n) []

theorem argsortList_length (key : ℕ → ℕ) (n : ℕ) :
    (argsortList key n).length = n := by
  simpa using (argsortList_perm key n).length_eq

theorem chunksOf_flatten {γ : Type} (bin_size : ℕ) :
    ∀ (nb : ℕ) (l : List γ), l.length = nb * bin_size →
      (chunksOf bin_size nb l).flatten = l := by
  intro nb
  induction nb with
  | zero =>
      intro l hl
      simp only [Nat.zero_mul] at hl
      simp [chunksOf, List.eq_nil_of_length_eq_zero hl]
  | succ k ih =>
      intro l hl
      simp only [chunksOf, List.flatten_cons]
      rw [ih (l.drop bin_size) (by rw [List.length_drop, hl, Nat.succ_mul]; omega)]
      exact List.take_append_drop bin_size l

theorem filter_zip_not_mem {β : Type} (x : ℕ → β) (i : ℕ) :
    ∀ (l : List ℕ), i ∉ l → (l.zip (l.map x)).filter (fun q => q.1 == i) = [] := by
  intro l
  induction l with
  | nil => intro _; rfl
  | cons a t ih =>
      intro hmem
      have ha : a ≠ i := fun h => hmem (h ▸ List.mem_cons_self a t)
      simp only [List.map_cons, List.zip_cons_cons, List.filter_cons]
      rw [if_neg (by simp [ha])]
      exact ih (fun h => hmem (List.mem_cons_of_mem a h))

theorem scatter_entry {β : Type} [AddCommMonoid β] (x : ℕ → β) (i : ℕ) :
    ∀ (l : List ℕ), l.Nodup → i ∈ l →
      ((((l.zip (l.map x)).filter (fun q => q.1 == i)).map Prod.snd).sum) = x i := by
  intro l
  induction l with
  | nil => intro _ h; cases h
  | cons a t ih =>
      intro hnd hmem
      simp only [List.map_cons, List.zip_cons_cons, List.filter_cons]
      by_cases hai : a = i
      · subst hai
        rw [if_pos (by simp)]
        have hnotin : a ∉ t := (List.nodup_cons.mp hnd).1
        rw [filter_zip_not_mem x a t hnotin]
        simp
      · rw [if_neg (by simp [hai])]
        have hit : i ∈ t := by
          rcases List.mem_cons.mp hmem with h | h
          · exact absurd h.symm hai
          · exact h
        exact ih (List.nodup_cons.mp hnd).2 hit

theorem scatter_gather_inverse {β : Type} [AddCommMonoid β] (x : ℕ → β) (n : ℕ)
    (p : List ℕ) (hperm : p.Perm (List.range n)) :
    scatterNd p (gatherL x p) n = (List.range n).map x := by
  have hnd : p.Nodup := hperm.nodup_iff.mpr (List.nodup_range n)
  unfold scatterNd gatherL
  refine List.map_congr_left ?_
  intro i hi
  exact scatter_entry x i p hnd (hperm.mem_iff.mpr hi)

theorem argmaxIdx_lt {α : Type} [LinearOrder α] :
    ∀ (l : List α), l ≠ [] → argmaxIdx l < l.length := by
  intro l
  induction l with
  | nil => intro h; exact absurd rfl h
  | cons a t ih =>
      intro _
      simp only [argmaxIdx]
      split
      · simp
      · rename_i h
        rcases t with _ | ⟨b, t'⟩
        · simp at h
        · have := ih (by simp)
          simp only [List.length_cons] at this ⊢
          omega

theorem splitIndicesFlat_length {α : Type} [LinearOrder α] (cmul : ℕ → List α) (nbins : ℕ)
    (msk : ℕ → Bool) (n : ℕ) : (splitIndicesFlat cmul nbins msk n).length = n :=
  argsortList_length _ n

theorem splitIndicesFlat_perm {α : Type} [LinearOrder α] (cmul : ℕ → List α) (nbins : ℕ)
    (msk : ℕ → Bool) (n : ℕ) : (splitIndicesFlat cmul nbins msk n).Perm (List.range n) :=
  argsortList_perm _ n

/-- C2: for one batch element, when n is divisible by bin_size the binning of
split_indices_to_bins_batch is a permutation of 0..n-1 (each flat index lands
in exactly one bin slot), and un-binning is a left inverse of binning:
reverse_lsh applied to the bins and the gathered features recovers the
original feature tensor. -/
theorem c2_binning_perm_and_inverse {α β : Type} [LinearOrder α] [AddCommMonoid β]
    (cmul : ℕ → List α) (msk : ℕ → Bool) (x : ℕ → β) (n bin_size : ℕ)
    (hdvd : bin_size ∣ n) :
    splitIndicesToBinsBatch cmul (n / bin_size) bin_size msk n
        = some (chunksOf bin_size (n / bin_size) (splitIndicesFlat cmul (n / bin_size) msk n))
    ∧ (splitIndicesFlat cmul (n / bin_size) msk n).Perm (List.range n)
    ∧ reverseLsh (chunksOf bin_size (n / bin_size) (splitIndicesFlat cmul (n / bin_size) msk n))
        (gatherBinned x (chunksOf bin_size (n / bin_size) (splitIndicesFlat cmul (n / bin_size) msk n))) n
        = (List.range n).map x := by
  have hlen : (splitIndicesFlat cmul (n / bin_size) msk n).length = n :=
    splitIndicesFlat_length cmul (n / bin_size) msk n
  have hperm : (splitIndicesFlat cmul (n / bin_size) msk n).Perm (List.range n) :=
    splitIndicesFlat_perm cmul (n / bin_size) msk n
  have hsz : (splitIndicesFlat cmul (n / bin_size) msk n).length = (n / bin_size) * bin_size := by
    rw [hlen, Nat.div_mul_cancel hdvd]
  refine ⟨?_, hperm, ?_⟩
  · unfold splitIndicesToBinsBatch reshapeBins
    rw [if_pos hsz]
  · have hflat : (chunksOf bin_size (n / bin_size) (splitIndicesFlat cmul (n / bin_size) msk n)).flatten
        = splitIndicesFlat cmul (n / bin_size) msk n :=
      chunksOf_flatten bin_size (n / bin_size) _ hsz
    unfold reverseLsh
    rw [show (gatherBinned x (chunksOf bin_size (n / bin_size) (splitIndicesFlat cmul (n / bin_size) msk n))).flatten
          = (chunksOf bin_size (n / bin_size) (splitIndicesFlat cmul (n / bin_size) msk n)).flatten.map x from by
        simp [gatherBinned, gatherL, List.map_flatten]]
    rw [hflat]
    exact scatter_gather_inverse x n _ hperm

def cmulW : ℕ → List ℤ := fun i => [(i : ℤ), 1 - (i : ℤ)]

def mskW : ℕ → Bool := fun i => i != 3

theorem c2_witness :
    (2 : ℕ) ∣ 4
    ∧ (splitIndicesToBinsBatch cmulW (4 / 2) 2 mskW 4
        = some (chunksOf 2 (4 / 2) (splitIndicesFlat cmulW (4 / 2) mskW 4))
      ∧ (splitIndicesFlat cmulW (4 / 2) mskW 4).Perm (List.range 4)
      ∧ reverseLsh (chunksOf 2 (4 / 2) (splitIndicesFlat cmulW (4 / 2) mskW 4))
          (gatherBinned (fun i => i + 10) (chunksOf 2 (4 / 2) (splitIndicesFlat cmulW (4 / 2) mskW 4))) 4
          = (List.range 4).map (fun i => i + 10)) :=
  ⟨by decide, c2_binning_perm_and_inverse cmulW mskW (fun i => i + 10) 4 2 (by decide)⟩

/-- C5: when bin_size does not divide the number of element slots, the reshape
inside split_indices_to_bins_batch fails (it is not a silent truncation): the
embedded reshape returns none. -/
theorem c5_nondivisible_reshape_fails {α : Type} [LinearOrder α] (cmul : ℕ → List α)
    (msk : ℕ → Bool) (n bin_size : ℕ) (hnd : ¬ bin_size ∣ n) :
    splitIndicesToBinsBatch cmul (n / bin_size) bin_size msk n = none := by
  unfold splitIndicesToBinsBatch reshapeBins
  rw [if_neg]
  rw [splitIndicesFlat_length]
  intro heq
  exact hnd ⟨n / bin_size, by rw [Nat.mul_comm]; exact heq⟩

theorem c5_witness :
    ¬ (2 : ℕ) ∣ 5
    ∧ splitIndicesToBinsBatch (fun _ => ([] : List ℤ)) (5 / 2) 2 (fun _ => true) 5 = none :=
  ⟨by decide, c5_nondivisible_reshape_fails (fun _ => ([] : List ℤ)) (fun _ => true) 5 2 (by decide)⟩

def xmsgC : ℕ → List ℤ := fun i => [([1, 1, 1, -1] : List ℤ).getD i 0]

def cbC : ℕ → List ℤ := fun _ => [1]

def mskC : ℕ → Bool := fun i => i != 0

/-- C4 counterexample: with 2 bins of size 2, one masked element (index 0) and
three real elements, the offset bin index of the masked element ties with
the bin index of a real element: the resulting binning places the masked element 0 before
the real element 3 in the bin-sorted order, and the second bin contains both a
real element and a padding element, so masked elements do not occupy dedicated
trailing bins. -/
theorem c4_counterexample :
    splitIndicesToBinsBatch (lshCmul xmsgC cbC (2 / 2)) 2 2 mskC 4 = some [[1, 2], [0, 3]]
    ∧ mskC 0 = false ∧ mskC 3 = true
    ∧ ¬ binsAllSeparated mskC [[1, 2], [0, 3]]
    ∧ (splitIndicesFlat (lshCmul xmsgC cbC (2 / 2)) 2 mskC 4).indexOf 0
        < (splitIndicesFlat (lshCmul xmsgC cbC (2 / 2)) 2 mskC 4).indexOf 3 := by
  decide

/-- C4 amended: the synthetic bin index of a masked element (argmax plus nbins-1)
is always at least nbins-1, hence at least the bin index of every real
element (whose argmax over the 2*(nbins/2) LSH scores is at most nbins-1).
Masked elements therefore never receive a strictly smaller bin index than any
real element; they are pushed toward the trailing bins, but ties at bin index
nbins-1 are possible and a single bin may contain both real and padding
elements. -/
theorem c4_masked_bin_index_ge {α : Type} [LinearOrderedCommRing α]
    (xmsg codebook : ℕ → List α) (nbins : ℕ) (msk : ℕ → Bool) (i j : ℕ)
    (hn : 1 ≤ nbins) (hi : msk i = false) (hj : msk j = true) :
    lshBinIdx nbins (lshCmul xmsg codebook (nbins / 2)) msk j
      ≤ lshBinIdx nbins (lshCmul xmsg codebook (nbins / 2)) msk i := by
  unfold lshBinIdx
  rw [hi, hj]
  simp only [reduceIte, Bool.false_eq_true, if_false, Nat.add_zero]
  have harg : argmaxIdx (lshCmul xmsg codebook (nbins / 2) j) ≤ nbins - 1 := by
    by_cases hz : lshCmul xmsg codebook (nbins / 2) j = []
    · rw [hz]
      simp only [argmaxIdx]
      omega
    · have hlt := argmaxIdx_lt _ hz
      have hlen : (lshCmul xmsg codebook (nbins / 2) j).length = nbins / 2 + nbins / 2 := by
        simp [lshCmul, lshProj]
      rw [hlen] at hlt
      omega
  omega

theorem c4_witness :
    1 ≤ 2 ∧ mskC 0 = false ∧ mskC 3 = true
    ∧ lshBinIdx 2 (lshCmul xmsgC cbC (2 / 2)) mskC 3
        ≤ lshBinIdx 2 (lshCmul xmsgC cbC (2 / 2)) mskC 0 :=
  ⟨by decide, by decide, by decide,
    c4_masked_bin_index_ge xmsgC cbC 2 mskC 0 3 (by decide) (by decide) (by decide)⟩

/-! ## Analytic primitives and the node-pair kernels -/

/-- Record of the analytic float primitives the model uses; every theorem
below holds for an arbitrary interpretation, in particular the real ones. -/
structure AnalyticOps where
  exp : ℚ → ℚ
  log : ℚ → ℚ
  sqrt : ℚ → ℚ
  sin : ℚ → ℚ
  cos : ℚ → ℚ
  cosh : ℚ → ℚ
  sigmoid : ℚ → ℚ

/-- A fixed concrete interpretation of the analytic primitives used to
evaluate witnesses (exp is the constant 1, log the constant 1, the rest the
identity). -/
def opsW : AnalyticOps :=
  { exp := fun _ => 1, log := fun _ => 1, sqrt := id, sin := id, cos := id,
    cosh := id, sigmoid := id }

/-- One entry of the binned mask tensor msk_f_binned: tf.gather of the cast
mask at the indices of the bin row (model.py lines 367 and 384). -/
def binnedMaskVal (msk : ℕ → Bool) (row : List ℕ) (p : ℕ) : ℚ :=
  if msk (row.getD p 0) then 1 else 0

/-- The post-hoc masking of the kernel output in MessageBuildingLayerLSH.call
(model.py lines 390-391): the two einsums multiply entry (p, q, k) of the
kernel output by the binned mask at p and at q.  The kernel output dm is kept
abstract, so the fact covers both the Gaussian and the learned variant. -/
def maskedKernelEntry (dm : ℕ → ℕ → ℕ → ℚ) (mb : ℕ → ℚ) (p q k : ℕ) : ℚ :=
  dm p q k * mb p * mb q

/-- C3: any kernel entry whose row or column position corresponds to a masked
slot within the bin is exactly zero after the masking einsums, for any kernel
output (hence for both the Gaussian and the learned kernel variant). -/
theorem c3_masked_kernel_zero (dm : ℕ → ℕ → ℕ → ℚ) (msk : ℕ → Bool) (row : List ℕ)
    (p q k : ℕ) (h : msk (row.getD p 0) = false ∨ msk (row.getD q 0) = false) :
    maskedKernelEntry dm (binnedMaskVal msk row) p q k = 0 := by
  rcases h with h | h
  · unfold maskedKernelEntry binnedMaskVal
    rw [h]
    simp
  · unfold maskedKernelEntry binnedMaskVal
    rw [h]
    simp

def mskC3 : ℕ → Bool := fun i => i != 7

theorem c3_witness :
    (mskC3 (([7, 2] : List ℕ).getD 0 0) = false)
    ∧ maskedKernelEntry (fun _ _ _ => 5) (binnedMaskVal mskC3 [7, 2]) 0 1 0 = 0 :=
  ⟨by decide, c3_masked_kernel_zero (fun _ _ _ => 5) mskC3 [7, 2] 0 1 0 (Or.inl (by decide))⟩

theorem dotL_comm {α : Type} [CommRing α] (a : List α) :
    ∀ b : List α, dotL a b = dotL b a := by
  induction a with
  | nil => intro b; cases b <;> rfl
  | cons x xs ih =>
      intro b
      cases b with
      | nil => rfl
      | cons y ys =>
          simp only [dotL, List.zipWith_cons_cons, List.sum_cons] at *
          rw [mul_comm x y, ih ys]

/-- One entry of pairwise_gaussian_dist (model.py lines 24-35): the squared
norms expanded around the cross matmul, floored at 1e-6 and square-rooted. -/
def pairwiseGaussianDist (ops : AnalyticOps) (A B : ℕ → List ℚ) (i j : ℕ) : ℚ :=
  ops.sqrt (max (sqnormL (A i) - 2 * dotL (A i) (B j) + sqnormL (B j)) (1 / 1000000))

/-- One entry of NodePairGaussianKernel.call (model.py lines 300-304):
exp of the negated scaled distance, clipped to the configured interval. -/
def nodePairGaussianKernel (ops : AnalyticOps) (clip_value_low dist_mult : ℚ)
    (x : ℕ → List ℚ) (i j : ℕ) : ℚ :=
  clipV (ops.exp (-(dist_mult * pairwiseGaussianDist ops x x i j))) clip_value_low 1

/-- C7: on identical inputs A = B the pairwise distance matrix is symmetric
and its diagonal is exactly the floor value sqrt of 1e-6; consequently the
Gaussian kernel matrix is symmetric with all values in the clip interval. -/
theorem c7_gaussian_kernel_symmetric (ops : AnalyticOps) (A : ℕ → List ℚ)
    (clip_value_low dist_mult : ℚ) (i j : ℕ) (hlow : clip_value_low ≤ 1) :
    pairwiseGaussianDist ops A A i j = pairwiseGaussianDist ops A A j i
    ∧ pairwiseGaussianDist ops A A i i = ops.sqrt (1 / 1000000)
    ∧ nodePairGaussianKernel ops clip_value_low dist_mult A i j
        = nodePairGaussianKernel ops clip_value_low dist_mult A j i
    ∧ clip_value_low ≤ nodePairGaussianKernel ops clip_value_low dist_mult A i j
    ∧ nodePairGaussianKernel ops clip_value_low dist_mult A i j ≤ 1 := by
  have harg : sqnormL (A i) - 2 * dotL (A i) (A j) + sqnormL (A j)
      = sqnormL (A j) - 2 * dotL (A j) (A i) + sqnormL (A i) := by
    rw [dotL_comm (A i) (A j)]; ring
  have hdsym : pairwiseGaussianDist ops A A i j = pairwiseGaussianDist ops A A j i := by
    unfold pairwiseGaussianDist
    rw [harg]
  refine ⟨hdsym, ?_, ?_, ?_, ?_⟩
  · unfold pairwiseGaussianDist
    have hzero : sqnormL (A i) - 2 * dotL (A i) (A i) + sqnormL (A i) = 0 := by
      unfold sqnormL; ring
    rw [hzero, max_eq_right (by norm_num)]
  · unfold nodePairGaussianKernel
    rw [hdsym]
  · unfold nodePairGaussianKernel clipV
    exact le_min (le_max_right _ _) hlow
  · unfold nodePairGaussianKernel clipV
    exact min_le_right _ _

theorem c7_witness :
    (0 : ℚ) ≤ 1
    ∧ (pairwiseGaussianDist opsW (fun _ => []) (fun _ => []) 0 1
        = pairwiseGaussianDist opsW (fun _ => []) (fun _ => []) 1 0
      ∧ pairwiseGaussianDist opsW (fun _ => []) (fun _ => []) 0 0 = opsW.sqrt (1 / 1000000)
      ∧ nodePairGaussianKernel opsW 0 1 (fun _ => []) 0 1
          = nodePairGaussianKernel opsW 0 1 (fun _ => []) 1 0
      ∧ (0 : ℚ) ≤ nodePairGaussianKernel opsW 0 1 (fun _ => []) 0 1
      ∧ nodePairGaussianKernel opsW 0 1 (fun _ => []) 0 1 ≤ 1) :=
  ⟨by norm_num, c7_gaussian_kernel_symmetric opsW (fun _ => []) 0 1 0 1 (by norm_num)⟩

/-! ## The energy log transform pair -/

/-- The log-energy forward transform of InputEncodingCMS.call
(model.py line 142): log of energy plus one. -/
def encoderLogEnergy (ops : AnalyticOps) (E : ℚ) : ℚ := ops.log (E + 1)

/-- The inverse transform of the decoder for the predicted energy
(model.py lines 567-568): exp of the log-energy clipped to [-6, 6], minus 1. -/
def decoderPredEnergy (ops : AnalyticOps) (z : ℚ) : ℚ :=
  ops.exp (clipV z (-6) 6) - 1

/-- C8: whenever the decoder receives the log-energy value of the encoder
unchanged and that value lies in the decoder clip interval [-6, 6], the
round trip exp(clip(log(E+1))) - 1 recovers E exactly, for any
interpretation of exp and log satisfying the inverse law at this point. -/
theorem c8_energy_round_trip (ops : AnalyticOps) (E : ℚ)
    (hinv : ops.exp (ops.log (E + 1)) = E + 1)
    (hlo : -6 ≤ encoderLogEnergy ops E) (hhi : encoderLogEnergy ops E ≤ 6) :
    decoderPredEnergy ops (encoderLogEnergy ops E) = E := by
  unfold encoderLogEnergy at hlo hhi
  unfold decoderPredEnergy encoderLogEnergy clipV
  rw [max_eq_left hlo, min_eq_left hhi, hinv]
  ring

theorem c8_witness :
    opsW.exp (opsW.log ((0 : ℚ) + 1)) = (0 : ℚ) + 1
    ∧ -6 ≤ encoderLogEnergy opsW 0 ∧ encoderLogEnergy opsW 0 ≤ 6
    ∧ decoderPredEnergy opsW (encoderLogEnergy opsW 0) = 0 :=
  ⟨by norm_num [opsW], by norm_num [encoderLogEnergy, opsW], by norm_num [encoderLogEnergy, opsW],
    c8_energy_round_trip opsW 0 (by norm_num [opsW]) (by norm_num [encoderLogEnergy, opsW])
      (by norm_num [encoderLogEnergy, opsW])⟩

/-! ## OutputDecoding (model.py lines 395-599) and the PFNetDense mask -/

/-- Configuration flags and class-wise weights of OutputDecoding; schema_cms
selects the cms branch of the raw-input skip connections (the only other
schema in the source is delphes). -/
structure DecCfg (C : ℕ) where
  schema_cms : Bool
  do_layernorm : Bool
  regression_use_classification : Bool
  pt_skip_gate : Bool
  eta_skip_gate : Bool
  phi_skip_gate : Bool
  energy_skip_gate : Bool
  mask_reg_cls0 : Bool
  classwise_energy_means : Fin C → ℚ
  classwise_energy_stds : Fin C → ℚ

/-- The learned sub-networks of OutputDecoding, abstracted as arbitrary
functions of their input features; the channel index of the multi-channel
heads selects the slice the source takes of the network output. -/
structure DecFfns (C : ℕ) where
  layernorm : List ℚ → List ℚ
  ffn_id : List ℚ → Fin C → ℚ
  ffn_charge : List ℚ → ℚ
  ffn_pt : List ℚ → ℕ → ℚ
  ffn_eta : List ℚ → ℕ → ℚ
  ffn_phi : List ℚ → ℕ → ℚ
  ffn_energy : List ℚ → ℕ → ℚ

/-- The seven named prediction heads returned by OutputDecoding.call for one
element slot (model.py lines 589-597). -/
structure DecOut (C : ℕ) where
  cls : Fin C → ℚ
  charge : ℚ
  pt : ℚ
  eta : ℚ
  sin_phi : ℚ
  cos_phi : ℚ
  energy : ℚ

/-- Softmax over the class axis: pointwise exp divided by the sum of exps
(tf.nn.softmax at model.py lines 513-514). -/
def softmaxQ {C : ℕ} (ops : AnalyticOps) (z : Fin C → ℚ) (j : Fin C) : ℚ :=
  ops.exp (z j) / ((List.finRange C).map (fun i => ops.exp (z i))).sum

/-- The layernorm branch applied to the encoded features
(model.py lines 508-509). -/
def decoderXEnc {C : ℕ} (cfg : DecCfg C) (f : DecFfns C) (X_encoded : List ℚ) : List ℚ :=
  if cfg.do_layernorm then f.layernorm X_encoded else X_encoded

/-- The masked classification logits out_id_logits (model.py line 511). -/
def outIdLogits {C : ℕ} (f : DecFfns C) (Xe : List ℚ) (msk_input : ℚ) : Fin C → ℚ :=
  fun j => f.ffn_id Xe j * msk_input

/-- The clipped high-temperature softmax out_id_hard_softmax of the masked
logits (model.py line 514); stop_gradient is the identity in the forward
pass. -/
def decoderHardSoftmax {C : ℕ} (ops : AnalyticOps) (cfg : DecCfg C) (f : DecFfns C)
    (X_encoded : List ℚ) (msk_input : ℚ) : Fin C → ℚ :=
  fun j =>
    clipV (softmaxQ ops
      (fun i => 100 * outIdLogits f (decoderXEnc cfg f X_encoded) msk_input i) j) 0 1

/-- OutputDecoding.call for one element slot (model.py lines 504-599).
X_input holds the raw features of the slot, X_encoded and X_encoded_energy
the two tower encodings, msk_input the cast padding mask value. -/
def outputDecoding {C : ℕ} (ops : AnalyticOps) (cfg : DecCfg C) (f : DecFfns C)
    (X_input : ℕ → ℚ) (X_encoded X_encoded_energy : List ℚ) (msk_input : ℚ) : DecOut C :=
  let Xe := decoderXEnc cfg f X_encoded
  let out_id_logits := outIdLogits f Xe msk_input
  let out_id_softmax : Fin C → ℚ := fun j => clipV (softmaxQ ops out_id_logits j) 0 1
  let out_id_hard_softmax := decoderHardSoftmax ops cfg f X_encoded msk_input
  let out_charge := f.ffn_charge Xe * msk_input
  let orig_eta := X_input 2
  let orig_sin_phi := (if cfg.schema_cms then ops.sin (X_input 3) else X_input 3) * msk_input
  let orig_cos_phi := (if cfg.schema_cms then ops.cos (X_input 3) else X_input 4) * msk_input
  let orig_log_energy :=
    (if cfg.schema_cms then ops.log (X_input 4 + 1) else ops.log (X_input 5 + 1)) * msk_input
  let XeR := if cfg.regression_use_classification then Xe ++ List.ofFn out_id_logits else Xe
  let pred_eta_corr : ℕ → ℚ := fun c => f.ffn_eta XeR c * msk_input
  let pred_phi_corr : ℕ → ℚ := fun c => f.ffn_phi XeR c * msk_input
  let pred_eta := if cfg.eta_skip_gate then orig_eta + pred_eta_corr 1
    else orig_eta * pred_eta_corr 0 + pred_eta_corr 1
  let pred_sin_phi := if cfg.phi_skip_gate then orig_sin_phi + pred_phi_corr 1
    else orig_sin_phi * pred_phi_corr 0 + pred_phi_corr 1
  let pred_cos_phi := if cfg.phi_skip_gate then orig_cos_phi + pred_phi_corr 3
    else orig_cos_phi * pred_phi_corr 2 + pred_phi_corr 3
  let XeE := if cfg.regression_use_classification
    then X_encoded_energy ++ List.ofFn out_id_logits else X_encoded_energy
  let pred_energy_corr : ℕ → ℚ := fun c => f.ffn_energy XeE c * msk_input
  let pred_pt_corr : ℕ → ℚ := fun c => f.ffn_pt XeE c * msk_input
  let pred_log_energy :=
    if cfg.energy_skip_gate then
      orig_log_energy + ops.sigmoid (pred_energy_corr 0) * pred_energy_corr 1
    else
      ((pred_energy_corr 0 + pred_energy_corr 1 * orig_log_energy
          + pred_energy_corr 2 * (orig_log_energy * orig_log_energy)
          + pred_energy_corr 3 * ops.sqrt orig_log_energy)
        - ((List.finRange C).map
            (fun j => out_id_hard_softmax j * cfg.classwise_energy_means j)).sum)
      / ((List.finRange C).map
          (fun j => out_id_hard_softmax j * cfg.classwise_energy_stds j)).sum
  let pred_energy := decoderPredEnergy ops pred_log_energy
  let orig_pt := pred_energy / ops.cosh (clipV pred_eta (-8) 8)
  let orig_log_pt := ops.log (orig_pt + 1)
  let pred_log_pt := if cfg.pt_skip_gate then
      orig_log_pt + ops.sigmoid (pred_pt_corr 0) * pred_pt_corr 1
    else orig_log_pt * pred_pt_corr 0 + pred_pt_corr 1
  let msk_output : ℚ := if argmaxIdx (List.ofFn out_id_hard_softmax) ≠ 0 then 1 else 0
  let out_charge_m := if cfg.mask_reg_cls0 then out_charge * msk_output else out_charge
  let pred_log_pt_m := if cfg.mask_reg_cls0 then pred_log_pt * msk_output else pred_log_pt
  let pred_eta_m := if cfg.mask_reg_cls0 then pred_eta * msk_output else pred_eta
  let pred_sin_phi_m := if cfg.mask_reg_cls0 then pred_sin_phi * msk_output else pred_sin_phi
  let pred_cos_phi_m := if cfg.mask_reg_cls0 then pred_cos_phi * msk_output else pred_cos_phi
  let pred_log_energy_m :=
    if cfg.mask_reg_cls0 then pred_log_energy * msk_output else pred_log_energy
  { cls := out_id_softmax
    charge := out_charge_m * msk_input
    pt := pred_log_pt_m * msk_input
    eta := pred_eta_m * msk_input
    sin_phi := pred_sin_phi_m * msk_input
    cos_phi := pred_cos_phi_m * msk_input
    energy := pred_log_energy_m * msk_input }

/-- The cast padding mask computed in PFNetDense.call from the raw input
(model.py lines 721-722): feature 0 equal to zero marks padding. -/
def pfnetMaskInput (X : ℕ → ℚ) : ℚ := if X 0 = 0 then 0 else 1

/-- PFNetDense.call composed with OutputDecoding for one element slot
(model.py line 757): the decoder invoked with the mask derived from the raw
input; the tower encodings stay abstract. -/
def pfnetDenseDecode {C : ℕ} (ops : AnalyticOps) (cfg : DecCfg C) (f : DecFfns C)
    (X : ℕ → ℚ) (dec_output dec_output_energy : List ℚ) : DecOut C :=
  outputDecoding ops cfg f X dec_output dec_output_energy (pfnetMaskInput X)

theorem clipV_eq_self {x lo hi : ℚ} (h1 : lo ≤ x) (h2 : x ≤ hi) : clipV x lo hi = x := by
  unfold clipV
  rw [max_eq_left h1, min_eq_left h2]

theorem softmaxQ_of_zero {C : ℕ} (ops : AnalyticOps) (z : Fin C → ℚ) (hz : ∀ j, z j = 0)
    (hC : 0 < C) (hexp : ops.exp 0 ≠ 0) (j : Fin C) : softmaxQ ops z j = 1 / C := by
  unfold softmaxQ
  rw [hz j]
  have hmap : (List.finRange C).map (fun i => ops.exp (z i))
      = (List.finRange C).map (fun _ => ops.exp 0) :=
    List.map_congr_left (fun i _ => by rw [hz i])
  rw [hmap, List.map_const', List.sum_replicate, List.length_finRange, nsmul_eq_mul]
  have hC' : (C : ℚ) ≠ 0 := Nat.cast_ne_zero.mpr hC.ne'
  field_simp
  ring

def cfgX : DecCfg 2 :=
  { schema_cms := true, do_layernorm := false, regression_use_classification := true,
    pt_skip_gate := true, eta_skip_gate := true, phi_skip_gate := true,
    energy_skip_gate := true, mask_reg_cls0 := true,
    classwise_energy_means := fun _ => 0, classwise_energy_stds := fun _ => 0 }

def fX : DecFfns 2 :=
  { layernorm := id, ffn_id := fun _ _ => 0, ffn_charge := fun _ => 0,
    ffn_pt := fun _ _ => 0, ffn_eta := fun _ _ => 0, ffn_phi := fun _ _ => 0,
    ffn_energy := fun _ _ => 0 }

/-- C1 counterexample: on an all-zero (hence padded, feature 0 equal to 0)
input slot, the cls head returned by the PFNetDense forward pass is the
uniform softmax value one half, not zero: the claim that every one of the
seven heads vanishes at padded slots fails for cls, which is returned
without the final padding-mask multiplication (model.py line 590). -/
theorem c1_counterexample :
    (fun _ => (0 : ℚ)) 0 = 0
    ∧ (pfnetDenseDecode opsW cfgX fX (fun _ => 0) [] []).cls 0 = 1 / 2
    ∧ (pfnetDenseDecode opsW cfgX fX (fun _ => 0) [] []).cls 0 ≠ 0 := by
  have hmsk : pfnetMaskInput (fun _ => (0 : ℚ)) = 0 := by
    unfold pfnetMaskInput
    rw [if_pos rfl]
  have hz : ∀ j, outIdLogits fX (decoderXEnc cfgX fX []) (0 : ℚ) j = 0 := by
    intro j
    unfold outIdLogits
    exact mul_zero _
  have hcls : (pfnetDenseDecode opsW cfgX fX (fun _ => 0) [] []).cls 0 = 1 / 2 := by
    show (outputDecoding opsW cfgX fX (fun _ => 0) [] [] (pfnetMaskInput fun _ => 0)).cls 0 = 1 / 2
    rw [hmsk]
    show clipV (softmaxQ opsW (outIdLogits fX (decoderXEnc cfgX fX []) 0) 0) 0 1 = 1 / 2
    rw [softmaxQ_of_zero opsW _ hz (by norm_num) (by norm_num [opsW])]
    rw [clipV_eq_self (by norm_num) (by norm_num)]
    norm_num
  exact ⟨rfl, hcls, by rw [hcls]; norm_num⟩

/-- C1 amended: at a padded element slot (raw feature 0 equal to zero) the
six regression heads charge, pt, eta, sin_phi, cos_phi and energy returned by
the PFNetDense forward pass are exactly zero, while the cls head is not
masked: it equals the uniform softmax value 1/C at every class (the softmax
of the zeroed logits, clipped to [0,1]). -/
theorem c1_padded_slot_outputs {C : ℕ} (ops : AnalyticOps) (cfg : DecCfg C) (f : DecFfns C)
    (X : ℕ → ℚ) (Xenc XencE : List ℚ) (hC : 0 < C) (hexp : ops.exp 0 ≠ 0)
    (hpad : X 0 = 0) :
    (pfnetDenseDecode ops cfg f X Xenc XencE).charge = 0
    ∧ (pfnetDenseDecode ops cfg f X Xenc XencE).pt = 0
    ∧ (pfnetDenseDecode ops cfg f X Xenc XencE).eta = 0
    ∧ (pfnetDenseDecode ops cfg f X Xenc XencE).sin_phi = 0
    ∧ (pfnetDenseDecode ops cfg f X Xenc XencE).cos_phi = 0
    ∧ (pfnetDenseDecode ops cfg f X Xenc XencE).energy = 0
    ∧ ∀ j, (pfnetDenseDecode ops cfg f X Xenc XencE).cls j = 1 / C := by
  have hmsk : pfnetMaskInput X = 0 := by
    unfold pfnetMaskInput
    rw [if_pos hpad]
  unfold pfnetDenseDecode
  rw [hmsk]
  refine ⟨mul_zero _, mul_zero _, mul_zero _, mul_zero _, mul_zero _, mul_zero _, ?_⟩
  intro j
  have hz : ∀ i, outIdLogits f (decoderXEnc cfg f Xenc) (0 : ℚ) i = 0 := by
    intro i
    unfold outIdLogits
    exact mul_zero _
  show clipV (softmaxQ ops (outIdLogits f (decoderXEnc cfg f Xenc) 0) j) 0 1 = 1 / C
  rw [softmaxQ_of_zero ops _ hz hC hexp]
  have hC' : (0 : ℚ) < (C : ℚ) := by exact_mod_cast hC
  rw [clipV_eq_self (by positivity) (by rw [div_le_one hC']; exact_mod_cast hC)]

theorem c1_witness :
    0 < 2 ∧ opsW.exp 0 ≠ 0 ∧ (fun _ => (0 : ℚ)) 0 = 0
    ∧ (pfnetDenseDecode opsW cfgX fX (fun _ => 0) [] []).charge = 0
    ∧ (pfnetDenseDecode opsW cfgX fX (fun _ => 0) [] []).pt = 0
    ∧ (pfnetDenseDecode opsW cfgX fX (fun _ => 0) [] []).eta = 0
    ∧ (pfnetDenseDecode opsW cfgX fX (fun _ => 0) [] []).sin_phi = 0
    ∧ (pfnetDenseDecode opsW cfgX fX (fun _ => 0) [] []).cos_phi = 0
    ∧ (pfnetDenseDecode opsW cfgX fX (fun _ => 0) [] []).energy = 0
    ∧ (pfnetDenseDecode opsW cfgX fX (fun _ => 0) [] []).cls 0 = 1 / ((2 : ℕ) : ℚ) := by
  have h := c1_padded_slot_outputs opsW cfgX fX (fun _ => 0) [] [] (by norm_num)
    (by norm_num [opsW]) rfl
  exact ⟨by norm_num, by norm_num [opsW], rfl, h.1, h.2.1, h.2.2.1, h.2.2.2.1,
    h.2.2.2.2.1, h.2.2.2.2.2.1, h.2.2.2.2.2.2 0⟩

/-- C6: when the mask_reg_cls0 policy is enabled and the hard-argmax
predicted class of an element (tf.argmax of the clipped high-temperature
softmax of the cls logits, model.py line 581) is 0, the six outputs charge,
pt, eta, sin_phi, cos_phi, energy returned by OutputDecoding are all exactly
zero at that element. -/
theorem c6_mask_reg_cls0_zeroes {C : ℕ} (ops : AnalyticOps) (cfg : DecCfg C) (f : DecFfns C)
    (X : ℕ → ℚ) (Xenc XencE : List ℚ) (msk_input : ℚ)
    (hm : cfg.mask_reg_cls0 = true)
    (h0 : argmaxIdx (List.ofFn (decoderHardSoftmax ops cfg f Xenc msk_input)) = 0) :
    (outputDecoding ops cfg f X Xenc XencE msk_input).charge = 0
    ∧ (outputDecoding ops cfg f X Xenc XencE msk_input).pt = 0
    ∧ (outputDecoding ops cfg f X Xenc XencE msk_input).eta = 0
    ∧ (outputDecoding ops cfg f X Xenc XencE msk_input).sin_phi = 0
    ∧ (outputDecoding ops cfg f X Xenc XencE msk_input).cos_phi = 0
    ∧ (outputDecoding ops cfg f X Xenc XencE msk_input).energy = 0 := by
  unfold outputDecoding
  simp only [hm, h0, if_true, ne_eq, not_true_eq_false, if_false, mul_zero, zero_mul,
    if_pos, reduceIte]
  exact ⟨trivial, trivial, trivial, trivial, trivial, trivial⟩

theorem c6_witness :
    cfgX.mask_reg_cls0 = true
    ∧ argmaxIdx (List.ofFn (decoderHardSoftmax opsW cfgX fX [] 1)) = 0
    ∧ ((outputDecoding opsW cfgX fX (fun _ => 0) [] [] 1).charge = 0
      ∧ (outputDecoding opsW cfgX fX (fun _ => 0) [] [] 1).pt = 0
      ∧ (outputDecoding opsW cfgX fX (fun _ => 0) [] [] 1).eta = 0
      ∧ (outputDecoding opsW cfgX fX (fun _ => 0) [] [] 1).sin_phi = 0
      ∧ (outputDecoding opsW cfgX fX (fun _ => 0) [] [] 1).cos_phi = 0
      ∧ (outputDecoding opsW cfgX fX (fun _ => 0) [] [] 1).energy = 0) := by
  have hz : ∀ i : Fin 2, (100 : ℚ) * outIdLogits fX (decoderXEnc cfgX fX []) 1 i = 0 := by
    intro i
    simp [outIdLogits, decoderXEnc, fX, cfgX]
  have hv : ∀ j : Fin 2, decoderHardSoftmax opsW cfgX fX [] 1 j = 1 / 2 := by
    intro j
    unfold decoderHardSoftmax
    rw [softmaxQ_of_zero opsW _ hz (by norm_num) (by norm_num [opsW]) j]
    rw [clipV_eq_self (by norm_num) (by norm_num)]
    norm_num
  have hA : argmaxIdx (List.ofFn (decoderHardSoftmax opsW cfgX fX [] 1)) = 0 := by
    have hl : List.ofFn (decoderHardSoftmax opsW cfgX fX [] 1) = [1 / 2, 1 / 2] := by
      simp [List.ofFn_succ, hv]
    rw [hl]
    norm_num [argmaxIdx]
  exact ⟨rfl, hA, c6_mask_reg_cls0_zeroes opsW cfgX fX (fun _ => 0) [] [] 1 rfl hA⟩

/-! ## Shape-level semantics of GHConvDense.call (model.py lines 204-226) -/

/-- A tensor shape: the list of dimension sizes. -/
abbrev Shape := List ℕ

/-- Semantics of tf.squeeze with no axis argument: every size-1 dimension is
removed, wherever it occurs (model.py line 207). -/
def squeezeAll (s : Shape) : Shape := s.filter (fun d => d != 1)

/-- Broadcast of two dimension sizes, the NumPy and TensorFlow rule. -/
def broadcastDim (a b : ℕ) : Option ℕ :=
  if a = 1 then some b else if b = 1 then some a else if a = b then some a else none

/-- Dimension-wise broadcast of two shapes of equal rank. -/
def zipBroadcast : Shape → Shape → Option Shape
  | [], [] => some []
  | a :: xs, b :: ys =>
      match broadcastDim a b, zipBroadcast xs ys with
      | some d, some rest => some (d :: rest)
      | _, _ => none
  | _, _ => none

/-- Pad a shape on the left with ones up to the given rank. -/
def padShape (r : ℕ) (s : Shape) : Shape := List.replicate (r - s.length) 1 ++ s

/-- Shape of an element-wise broadcasting binary operation. -/
def broadcastShapes (a b : Shape) : Option Shape :=
  zipBroadcast (padShape (max a.length b.length) a) (padShape (max a.length b.length) b)

/-- Shape of tf.linalg.matmul with batch broadcasting: both operands need
rank at least 2, the two inner dimensions must agree, and the leading batch
dimensions broadcast. -/
def matmulShape (a b : Shape) : Option Shape :=
  match a.reverse, b.reverse with
  | k1 :: m :: arest, n2 :: k2 :: brest =>
      if k1 = k2 then
        match broadcastShapes arest.reverse brest.reverse with
        | some bt => some (bt ++ [m, n2])
        | none => none
      else none
  | _, _ => none

/-- Shape-level semantics of GHConvDense.call with degree normalization
(model.py lines 204-226): squeeze of the adjacency, degree reduction and
normalization, the two matmuls of the homogeneous update, the heterogeneous
update, the gate, and the final mask multiplication.  x, adj and msk are the
shapes of the three inputs; h and d are the hidden and output widths. -/
def ghconvShape (x adj msk : Shape) (h d : ℕ) : Option Shape := do
  let adjs := squeezeAll adj
  let norm ← broadcastShapes (adjs.dropLast ++ [1]) msk
  let xm ← broadcastShapes x msk
  let fhom1 ← matmulShape xm [h, d]
  let fhom2 ← broadcastShapes fhom1 msk
  let fhomn ← broadcastShapes fhom2 norm
  let fhom3 ← matmulShape adjs fhomn
  let fhom ← broadcastShapes fhom3 norm
  let xm2 ← broadcastShapes x msk
  let fhet ← matmulShape xm2 [h, d]
  let g1 ← matmulShape x [h, d]
  let gate ← broadcastShapes g1 [d]
  let t1 ← broadcastShapes gate fhom
  let t2 ← broadcastShapes gate fhet
  let outp ← broadcastShapes t1 t2
  broadcastShapes outp msk

/-- C10 counterexample: with batch size 1 (adjacency shape [1,2,2,2,1], a
size-1 leading dimension) the unconditional squeeze removes the batch
dimension as well, yet batched-matmul broadcasting restores it: the forward
pass is shape-correct and returns exactly the expected shape [1,2,2,4],
contradicting the claim that every size-1 leading dimension makes the call
fail or produce a tensor of a different shape. -/
theorem c10_counterexample :
    ghconvShape [1, 2, 2, 3] [1, 2, 2, 2, 1] [1, 2, 2, 1] 3 4 = some [1, 2, 2, 4] := by
  decide

theorem broadcastDim_self (a : ℕ) : broadcastDim a a = some a := by
  by_cases h : a = 1 <;> simp [broadcastDim, h]

theorem broadcastDim_one_left (b : ℕ) : broadcastDim 1 b = some b := by
  simp [broadcastDim]

theorem broadcastDim_one_right (a : ℕ) : broadcastDim a 1 = some a := by
  by_cases h : a = 1 <;> simp [broadcastDim, h]

set_option maxHeartbeats 2000000 in
/-- C10 amended: tf.squeeze in GHConvDense.call removes every size-1
dimension of the adjacency.  With batch and bin dimensions both above 1 the
forward pass has the expected shape [b, n, s, d]; with batch 1 the squeeze
also drops the batch dimension but batched-matmul broadcasting restores it
and the output shape is still correct; with a bin dimension of 1 (and batch
above 1) the pass does not fail but silently produces shape [b, b, s, d]
instead of the expected [b, 1, s, d] - the batch dimension is duplicated. -/
theorem c10_squeeze_shape_behavior (b n s h d : ℕ) (hb : 2 ≤ b) (hn : 2 ≤ n) (hs : 2 ≤ s) :
    ghconvShape [b, n, s, h] [b, n, s, s, 1] [b, n, s, 1] h d = some [b, n, s, d]
    ∧ ghconvShape [1, n, s, h] [1, n, s, s, 1] [1, n, s, 1] h d = some [1, n, s, d]
    ∧ ghconvShape [b, 1, s, h] [b, 1, s, s, 1] [b, 1, s, 1] h d = some [b, b, s, d]
    ∧ ([b, b, s, d] : Shape) ≠ [b, 1, s, d] := by
  have hb1 : b ≠ 1 := by omega
  have hn1 : n ≠ 1 := by omega
  have hs1 : s ≠ 1 := by omega
  refine ⟨?_, ?_, ?_, ?_⟩
  · simp [ghconvShape, squeezeAll, matmulShape, broadcastShapes, padShape, zipBroadcast,
      broadcastDim_self, broadcastDim_one_left, broadcastDim_one_right, hb1, hn1, hs1,
      Option.bind]
  · simp [ghconvShape, squeezeAll, matmulShape, broadcastShapes, padShape, zipBroadcast,
      broadcastDim_self, broadcastDim_one_left, broadcastDim_one_right, hn1, hs1,
      Option.bind]
  · simp [ghconvShape, squeezeAll, matmulShape, broadcastShapes, padShape, zipBroadcast,
      broadcastDim_self, broadcastDim_one_left, broadcastDim_one_right, hb1, hs1,
      Option.bind]
  · simp [hb1]

theorem c10_witness :
    2 ≤ 2 ∧ 2 ≤ 3 ∧ 2 ≤ 4
    ∧ (ghconvShape [2, 3, 4, 5] [2, 3, 4, 4, 1] [2, 3, 4, 1] 5 6 = some [2, 3, 4, 6]
      ∧ ghconvShape [1, 3, 4, 5] [1, 3, 4, 4, 1] [1, 3, 4, 1] 5 6 = some [1, 3, 4, 6]
      ∧ ghconvShape [2, 1, 4, 5] [2, 1, 4, 4, 1] [2, 1, 4, 1] 5 6 = some [2, 2, 4, 6]
      ∧ ([2, 2, 4, 6] : Shape) ≠ [2, 1, 4, 6]) :=
  ⟨by decide, by decide, by decide,
    c10_squeeze_shape_behavior 2 3 4 5 6 (by decide) (by decide) (by decide)⟩

/-! ## set_trainable_named (model.py lines 601-614 and 768-774) -/

/-- Set the trainable flag of the named layer in a layer-to-flag association
list. -/
def setFlag (st : List (String × Bool)) (nm : String) (v : Bool) : List (String × Bool) :=
  st.map (fun p => if p.1 = nm then (p.1, v) else p)

/-- OutputDecoding.set_trainable_named (model.py lines 601-614) modelled at
the layer-name level.  The source first freezes every sublayer, then rebinds
the local variable holding the requested subset to the list of all sublayer
names (line 607), so the following loop marks every sublayer trainable: the
requested argument is ignored and the getattr branch is dead code because
the membership test always succeeds. -/
def setTrainableNamed (sublayers : List String) (_requested : List String) :
    List (String × Bool) :=
  let st0 := sublayers.map (fun l => (l, false))
  let layer_names := sublayers
  layer_names.foldl (fun st nm => if nm ∈ layer_names then setFlag st nm true else st) st0

/-- The keras sublayer names of OutputDecoding in the default configuration:
the six feed-forward heads (the attribute self.ffn_id is the network named
ffn_cls, model.py line 452). -/
def outputDecodingSublayers : List String :=
  ["ffn_cls", "ffn_charge", "ffn_pt", "ffn_eta", "ffn_phi", "ffn_energy"]

/-- C9, behavior of the code at the failing input: after the call
set_trainable_named(["ffn_id"]) every sublayer of the decoder ends up
trainable, in particular heads outside the requested subset such as
ffn_charge and ffn_energy, which therefore receive non-zero gradients in the
next backward pass; the claimed behavior (all parameters outside the subset
frozen with exactly zero gradient) does not hold. -/
theorem c9_all_layers_trainable :
    setTrainableNamed outputDecodingSublayers ["ffn_id"]
        = outputDecodingSublayers.map (fun l => (l, true))
    ∧ ("ffn_charge", true) ∈ setTrainableNamed outputDecodingSublayers ["ffn_id"]
    ∧ ("ffn_energy", true) ∈ setTrainableNamed outputDecodingSublayers ["ffn_id"] := by
  decide
